import Mathlib

/-
Verification of the ADAT archive reader (src/lib.rs) against its
natural-language specification.

The Rust code is shallowly embedded: a seekable byte source is a list of
bytes (as `Nat`, each value `< 256` in the source domain) together with a
cursor position; every fallible operation returns `Except`.  The external
zlib inflater (miniz_oxide's `decompress_to_vec_zlib_with_limit`) is
modelled parametrically: an abstract pure inflate function stands for the
unlimited zlib decompression of a byte string, and the `_with_limit`
wrapper is modelled by its observable behaviour (return the inflated bytes
when they fit under the limit, report `limitExceeded` when they do not,
report `corrupt` when the stream is malformed).
-/

namespace Adat

/-- Abstract pure zlib inflate: maps a compressed byte string to its
decompressed bytes, or an error for a malformed stream. -/
def Inflate : Type := List Nat → Except Unit (List Nat)

/-- Errors produced by the limited decompressor (miniz_oxide statuses,
restricted to the observable outcomes of `decompress_to_vec_zlib_with_limit`). -/
inductive InflateError where
  | corrupt : InflateError
  | limitExceeded : InflateError
deriving DecidableEq

/-- Errors of the ADAT reader.  The Rust code wraps all of these in
`std::io::Error` with `ErrorKind::Other` and a message; we keep them as
distinguishable constructors carrying the data the messages report. -/
inductive AdatError where
  | unexpectedEof : AdatError
  | magicMismatch (found : List Nat) : AdatError
  | versionMismatch (expected found : Nat) : AdatError
  | emptyToc : AdatError
  | invalidEntryName : AdatError
  | decompressionError (e : InflateError) : AdatError
  | entryNotFound : AdatError
  | textDecodeError : AdatError
deriving DecidableEq

/-- Model of miniz_oxide's `decompress_to_vec_zlib_with_limit data limit`:
inflate `data`; if the stream is malformed the result is `corrupt`; if the
inflated output would exceed `limit` bytes the result is `limitExceeded`;
otherwise the inflated bytes are returned. -/
def decompress_to_vec_zlib_with_limit (inf : Inflate) (data : List Nat)
    (limit : Nat) : Except InflateError (List Nat) :=
  match inf data with
  | .error _ => .error .corrupt
  | .ok out => if out.length ≤ limit then .ok out else .error .limitExceeded

/-- `const ADAT_MAGIC: [u8; 4] = [65, 68, 65, 84];` -/
def ADAT_MAGIC : List Nat := [65, 68, 65, 84]

/-- `const ADAT_ENTRY_SIZE: u32 = 128 + 4 + 4 + 4 + 4;` (the raw size of a
TOC record, 144 bytes). -/
def ADAT_ENTRY_SIZE : Nat := 128 + 4 + 4 + 4 + 4

/-- `fn u32le_from_slice(acc: &[u8]) -> u32`: little-endian decoding of the
first four bytes.  Source bytes are `u8` (< 256), so the decoded value is
below 2^32 and no modulus is needed. -/
def u32le_from_slice (acc : List Nat) : Nat :=
  acc.getD 0 0 + 256 * acc.getD 1 0 + 65536 * acc.getD 2 0 +
    16777216 * acc.getD 3 0

/-- A seekable readable byte source (`T: Read + Seek`): its full contents
and the current cursor position. -/
structure ByteSource where
  data : List Nat
  pos : Nat
deriving DecidableEq

/-- `cursor.seek(SeekFrom::Start(off))`: repositions the cursor.  Seeking
to an absolute offset always succeeds on a byte source. -/
def ByteSource.seek (src : ByteSource) (off : Nat) : ByteSource :=
  ⟨src.data, off⟩

/-- `cursor.read_exact(&mut buf)` for a buffer of `n` bytes: succeeds and
advances the cursor when `n` bytes are available at the current position,
otherwise fails with an unexpected-EOF error. -/
def ByteSource.read_exact (src : ByteSource) (n : Nat) :
    Except AdatError (List Nat × ByteSource) :=
  if src.pos + n ≤ src.data.length then
    .ok ((src.data.drop src.pos).take n, ⟨src.data, src.pos + n⟩)
  else
    .error .unexpectedEof

/-- `struct PackageEntry`: one 144-byte TOC record.  `name` holds the raw
128 name bytes; `length` is the declared decompressed size;
`compressed_length` the stored payload size; `u0` the opaque reserved
field. -/
structure PackageEntry where
  name : List Nat
  offset : Nat
  length : Nat
  compressed_length : Nat
  u0 : Nat
deriving DecidableEq

/-- `struct PackageHeader`: the 16-byte fixed header. -/
structure PackageHeader where
  magic : Nat
  toc_offset : Nat
  toc_length : Nat
  version : Nat
deriving DecidableEq

/-- Is `b` a UTF-8 continuation byte (`0x80..=0xBF`)? -/
def isUtf8Cont (b : Nat) : Bool := 128 ≤ b && b ≤ 191

/-- Strict UTF-8 validity of a byte string, as decided by Rust's
`core::str::from_utf8`: ASCII, and two/three/four-byte sequences with the
shortest-form and surrogate restrictions. -/
def validUtf8 : List Nat → Bool
  | [] => true
  | b :: rest =>
    if b ≤ 127 then validUtf8 rest
    else if 194 ≤ b && b ≤ 223 then
      match rest with
      | c1 :: rest1 => isUtf8Cont c1 && validUtf8 rest1
      | [] => false
    else if b == 224 then
      match rest with
      | c1 :: c2 :: rest2 =>
        (160 ≤ c1 && c1 ≤ 191) && isUtf8Cont c2 && validUtf8 rest2
      | _ => false
    else if (225 ≤ b && b ≤ 236) || b == 238 || b == 239 then
      match rest with
      | c1 :: c2 :: rest2 => isUtf8Cont c1 && isUtf8Cont c2 && validUtf8 rest2
      | _ => false
    else if b == 237 then
      match rest with
      | c1 :: c2 :: rest2 =>
        (128 ≤ c1 && c1 ≤ 159) && isUtf8Cont c2 && validUtf8 rest2
      | _ => false
    else if b == 240 then
      match rest with
      | c1 :: c2 :: c3 :: rest3 =>
        (144 ≤ c1 && c1 ≤ 191) && isUtf8Cont c2 && isUtf8Cont c3 &&
          validUtf8 rest3
      | _ => false
    else if 241 ≤ b && b ≤ 243 then
      match rest with
      | c1 :: c2 :: c3 :: rest3 =>
        isUtf8Cont c1 && isUtf8Cont c2 && isUtf8Cont c3 && validUtf8 rest3
      | _ => false
    else if b == 244 then
      match rest with
      | c1 :: c2 :: c3 :: rest3 =>
        (128 ≤ c1 && c1 ≤ 143) && isUtf8Cont c2 && isUtf8Cont c3 &&
          validUtf8 rest3
      | _ => false
    else false

/-- Remove all trailing `0x00` bytes.  In valid UTF-8 a `0x00` byte is
exactly the NUL scalar value, so this is `str::trim_end_matches('\0')`
seen at the byte level. -/
def dropTrailingZeros (l : List Nat) : List Nat :=
  (l.reverse.dropWhile (fun b => b == 0)).reverse

/-- `PackageEntry::get_name`: decode the raw 128 name bytes as UTF-8 and
trim trailing NULs; fails when the bytes are not valid UTF-8.  Strings are
represented by their UTF-8 bytes. -/
def PackageEntry.get_name (e : PackageEntry) : Except AdatError (List Nat) :=
  if validUtf8 e.name then .ok (dropTrailingZeros e.name)
  else .error .invalidEntryName

/-- `PackageEntry::read_entry`: seek to the entry's payload offset, read
exactly `compressed_length` bytes, inflate them with the output capped at
`length` bytes.  Returns the result together with the byte source as left
by the call (a failed `read_exact` leaves the cursor at an unspecified
position, modelled as end-of-data). -/
def PackageEntry.read_entry (inf : Inflate) (e : PackageEntry)
    (src : ByteSource) : Except AdatError (List Nat) × ByteSource :=
  let src1 := src.seek e.offset
  match src1.read_exact e.compressed_length with
  | .error err => (.error err, ⟨src1.data, src1.data.length⟩)
  | .ok (compressed_data, src2) =>
    match decompress_to_vec_zlib_with_limit inf compressed_data e.length with
    | .ok v => (.ok v, src2)
    | .error ie => (.error (.decompressionError ie), src2)

/-- `PackageHeader::read_package_header`: read 16 bytes at the current
position; check the magic, decode the four little-endian fields, check the
version. -/
def PackageHeader.read_package_header (src : ByteSource) :
    Except AdatError (PackageHeader × ByteSource) :=
  match src.read_exact 16 with
  | .error e => .error e
  | .ok (buffer, src1) =>
    if buffer.take 4 ≠ ADAT_MAGIC then
      .error (.magicMismatch (buffer.take 4))
    else
      let result : PackageHeader :=
        { magic := u32le_from_slice (buffer.take 4)
          toc_offset := u32le_from_slice ((buffer.drop 4).take 4)
          toc_length := u32le_from_slice ((buffer.drop 8).take 4)
          version := u32le_from_slice ((buffer.drop 12).take 4) }
      if result.version ≠ 9 then
        .error (.versionMismatch 9 result.version)
      else
        .ok (result, src1)

/-- `PackageEntry::read_package_entry`: read the 128 name bytes, then a
16-byte buffer holding the four little-endian integer fields. -/
def PackageEntry.read_package_entry (src : ByteSource) :
    Except AdatError (PackageEntry × ByteSource) :=
  match src.read_exact 128 with
  | .error e => .error e
  | .ok (nameBytes, src1) =>
    match src1.read_exact 16 with
    | .error e => .error e
    | .ok (buffer, src2) =>
      .ok ({ name := nameBytes
             offset := u32le_from_slice (buffer.take 4)
             length := u32le_from_slice ((buffer.drop 4).take 4)
             compressed_length := u32le_from_slice ((buffer.drop 8).take 4)
             u0 := u32le_from_slice ((buffer.drop 12).take 4) }, src2)

/-- `PackageEntry::read_package_entries`: read `entry_count` consecutive
TOC records. -/
def PackageEntry.read_package_entries (src : ByteSource) :
    Nat → Except AdatError (List PackageEntry × ByteSource)
  | 0 => .ok ([], src)
  | n + 1 =>
    match PackageEntry.read_package_entry src with
    | .error e => .error e
    | .ok (entry, src1) =>
      match PackageEntry.read_package_entries src1 n with
      | .error e => .error e
      | .ok (entries, src2) => .ok (entry :: entries, src2)

/-- Insertion into the name-to-descriptor map (Rust `HashMap::insert`):
an existing binding for the key is overwritten, otherwise the pair is
appended. -/
def insertA (k : List Nat) (v : PackageEntry) :
    List (List Nat × PackageEntry) → List (List Nat × PackageEntry)
  | [] => [(k, v)]
  | (k0, v0) :: rest =>
    if k0 = k then (k0, v) :: rest else (k0, v0) :: insertA k v rest

/-- Lookup in the name-to-descriptor map (Rust `HashMap::get`). -/
def lookupA (k : List Nat) :
    List (List Nat × PackageEntry) → Option PackageEntry
  | [] => none
  | (k0, v0) :: rest => if k0 = k then some v0 else lookupA k rest

/-- The entry-map construction loop of `mount_from_cursor`: for each
descriptor in order, decode its name (propagating the UTF-8 error) and
insert it, overwriting any earlier record with the same name. -/
def insert_entries :
    List PackageEntry → List (List Nat × PackageEntry) →
      Except AdatError (List (List Nat × PackageEntry))
  | [], m => .ok m
  | e :: rest, m =>
    match e.get_name with
    | .error err => .error err
    | .ok path => insert_entries rest (insertA path e m)

/-- `struct Package`: the mounted archive — the exclusively held byte
source, the validated header, and the name-to-descriptor map. -/
structure Package where
  cursor : ByteSource
  header : PackageHeader
  entries : List (List Nat × PackageEntry)
deriving DecidableEq

/-- `Package::mount_from_cursor`: seek to 0, read and validate the header,
compute `entry_count = toc_length / ADAT_ENTRY_SIZE`, reject an empty TOC,
seek to the TOC, read the records and build the name map. -/
def Package.mount_from_cursor (src : ByteSource) : Except AdatError Package :=
  let src0 := src.seek 0
  match PackageHeader.read_package_header src0 with
  | .error e => .error e
  | .ok (header, src1) =>
    let entry_count := header.toc_length / ADAT_ENTRY_SIZE
    if entry_count = 0 then .error .emptyToc
    else
      let src2 := src1.seek header.toc_offset
      match PackageEntry.read_package_entries src2 entry_count with
      | .error e => .error e
      | .ok (entries, src3) =>
        match insert_entries entries [] with
        | .error e => .error e
        | .ok entrymap =>
          .ok { cursor := src3, header := header, entries := entrymap }

/-- `Package::list_entries`: all keys of the name map (Rust's `HashMap`
iteration order is unspecified; the model exposes insertion order). -/
def Package.list_entries (p : Package) : List (List Nat) :=
  p.entries.map Prod.fst

/-- `Package::read_entry`: look the name up in the index — failing with
a not-found error and leaving everything untouched when absent — and
otherwise run the descriptor's `read_entry` against the held source. -/
def Package.read_entry (inf : Inflate) (p : Package) (entry_path : List Nat) :
    Except AdatError (List Nat) × Package :=
  match lookupA entry_path p.entries with
  | none => (.error .entryNotFound, p)
  | some pe =>
    let r := PackageEntry.read_entry inf pe p.cursor
    (r.1, { p with cursor := r.2 })

/-- `Package::read_text_entry`: `read_entry` followed by UTF-8 decoding of
the result (`String::from_utf8`); the decoded string is represented by its
bytes. -/
def Package.read_text_entry (inf : Inflate) (p : Package)
    (entry_path : List Nat) : Except AdatError (List Nat) × Package :=
  let r := Package.read_entry inf p entry_path
  match r.1 with
  | .error e => (.error e, r.2)
  | .ok v =>
    if validUtf8 v then (.ok v, r.2) else (.error .textDecodeError, r.2)

/-- The first four bytes of the source: the magic field of the header. -/
def magicBytes (d : List Nat) : List Nat := d.take 4

/-- The `tocOffset` header field: bytes 4..8, little-endian. -/
def tocOffsetOf (d : List Nat) : Nat := u32le_from_slice ((d.drop 4).take 4)

/-- The `tocLength` header field: bytes 8..12, little-endian. -/
def tocLengthOf (d : List Nat) : Nat := u32le_from_slice ((d.drop 8).take 4)

/-- The `version` header field: bytes 12..16, little-endian. -/
def versionOf (d : List Nat) : Nat := u32le_from_slice ((d.drop 12).take 4)

/-- The TOC record laid out at absolute offset `p` of the source: 128 name
bytes followed by the four little-endian `u32` fields. -/
def recordAt (d : List Nat) (p : Nat) : PackageEntry :=
  { name := (d.drop p).take 128
    offset := u32le_from_slice ((d.drop (p + 128)).take 4)
    length := u32le_from_slice ((d.drop (p + 132)).take 4)
    compressed_length := u32le_from_slice ((d.drop (p + 136)).take 4)
    u0 := u32le_from_slice ((d.drop (p + 140)).take 4) }

/-- The `n` consecutive 144-byte TOC records starting at offset `off`. -/
def tocEntries (d : List Nat) (off n : Nat) : List PackageEntry :=
  (List.range n).map (fun i => recordAt d (off + 144 * i))

/-- The name-to-descriptor map built from a record list in TOC order,
later records overwriting earlier ones with the same trimmed name. -/
def entryMapOf (es : List PackageEntry) : List (List Nat × PackageEntry) :=
  es.foldl (fun m e => insertA (dropTrailingZeros e.name) e m) []

/-- A well-formed one-entry archive: header with `tocOffset = 16`,
`tocLength = 144` and `version = 9`, one record named `"a"` (offset 160,
declared length 3, compressed length 2), and its 2-byte payload. -/
def archA : List Nat :=
  [65, 68, 65, 84, 16, 0, 0, 0, 144, 0, 0, 0, 9, 0, 0, 0] ++
    (97 :: List.replicate 127 0) ++
    [160, 0, 0, 0, 3, 0, 0, 0, 2, 0, 0, 0, 0, 0, 0, 0] ++ [10, 20]

/-- The single TOC record of `archA`. -/
def recA : PackageEntry := ⟨97 :: List.replicate 127 0, 160, 3, 2, 0⟩

/-- The package produced by mounting `archA`. -/
def pkgA : Package :=
  ⟨⟨archA, 160⟩, ⟨1413563457, 16, 144, 9⟩, [([97], recA)]⟩

/-- Like `archA` but with `tocLength = 141`: at least one full record is
present and readable, yet `141 / 144 = 0`. -/
def archB : List Nat :=
  [65, 68, 65, 84, 16, 0, 0, 0, 141, 0, 0, 0, 9, 0, 0, 0] ++
    (97 :: List.replicate 127 0) ++
    [160, 0, 0, 0, 3, 0, 0, 0, 2, 0, 0, 0, 0, 0, 0, 0] ++ [10, 20]

/-- Like `archA` but with `tocLength = 150`, which is not a multiple of the
record size: one record is read and the trailing 6 bytes are ignored. -/
def archC : List Nat :=
  [65, 68, 65, 84, 16, 0, 0, 0, 150, 0, 0, 0, 9, 0, 0, 0] ++
    (97 :: List.replicate 127 0) ++
    [160, 0, 0, 0, 3, 0, 0, 0, 2, 0, 0, 0, 0, 0, 0, 0] ++ [10, 20]

/-- A 16-byte header with correct magic but `version = 8`. -/
def archV8 : List Nat := [65, 68, 65, 84, 16, 0, 0, 0, 144, 0, 0, 0, 8, 0, 0, 0]

/-- A 16-byte header whose magic is wrong (first byte 66) and whose
version field (8) is also wrong. -/
def archBadMagic : List Nat :=
  [66, 68, 65, 84, 16, 0, 0, 0, 144, 0, 0, 0, 8, 0, 0, 0]

/-- A concrete inflate oracle standing for a zlib stream that inflates to
the single byte `7` (such streams exist for any compressed input we pair
it with). -/
def infShort : Inflate := fun _ => .ok [7]

/-- A descriptor declaring decompressed length 5 for a 2-byte payload at
offset 0. -/
def recB : PackageEntry := ⟨97 :: List.replicate 127 0, 0, 5, 2, 0⟩

/-- A package over a 3-byte source whose index maps `"a"` to `recB`. -/
def pkgB : Package := ⟨⟨[1, 2, 3], 0⟩, ⟨1413563457, 16, 144, 9⟩, [([97], recB)]⟩

/-- `pkgB` after a successful read of `"a"` (cursor advanced to 2). -/
def pkgB2 : Package :=
  ⟨⟨[1, 2, 3], 2⟩, ⟨1413563457, 16, 144, 9⟩, [([97], recB)]⟩

end Adat

deriving instance DecidableEq for Except

namespace Adat

/-- The TOC record size constant evaluates to 144 bytes (not 140). -/
theorem ADAT_ENTRY_SIZE_eq : ADAT_ENTRY_SIZE = 144 := rfl

/-- Characterization of `read_package_header` at position 0 in terms of
the header fields of the underlying data. -/
theorem read_package_header_spec (d : List Nat) :
    PackageHeader.read_package_header ⟨d, 0⟩ =
      if 16 ≤ d.length then
        if magicBytes d = ADAT_MAGIC then
          if versionOf d = 9 then
            .ok (⟨u32le_from_slice (magicBytes d), tocOffsetOf d,
                   tocLengthOf d, versionOf d⟩, ⟨d, 16⟩)
          else .error (.versionMismatch 9 (versionOf d))
        else .error (.magicMismatch (magicBytes d))
      else .error .unexpectedEof := by
  have e1 : (d.take 16).take 4 = d.take 4 := by
    rw [List.take_take]; norm_num
  have e2 : ((d.take 16).drop 4).take 4 = (d.drop 4).take 4 := by
    rw [List.drop_take, List.take_take]; norm_num
  have e3 : ((d.take 16).drop 8).take 4 = (d.drop 8).take 4 := by
    rw [List.drop_take, List.take_take]; norm_num
  have e4 : ((d.take 16).drop 12).take 4 = (d.drop 12).take 4 := by
    rw [List.drop_take, List.take_take]; norm_num
  by_cases h16 : 16 ≤ d.length
  · by_cases hm : d.take 4 = ADAT_MAGIC
    · by_cases hv : u32le_from_slice ((d.drop 12).take 4) = 9
      · simp [PackageHeader.read_package_header, ByteSource.read_exact, h16,
          List.drop_zero, e1, e2, e3, e4, magicBytes, tocOffsetOf,
          tocLengthOf, versionOf, hm, hv]
      · simp [PackageHeader.read_package_header, ByteSource.read_exact, h16,
          List.drop_zero, e1, e2, e3, e4, magicBytes, tocOffsetOf,
          tocLengthOf, versionOf, hm, hv]
    · simp [PackageHeader.read_package_header, ByteSource.read_exact, h16,
        List.drop_zero, e1, e2, e3, e4, magicBytes, hm]
  · simp [PackageHeader.read_package_header, ByteSource.read_exact, h16]

/-- Reading one TOC record at position `p` succeeds exactly when 144 bytes
are available, and yields the record laid out at `p`. -/
theorem read_package_entry_spec (d : List Nat) (p : Nat) :
    PackageEntry.read_package_entry ⟨d, p⟩ =
      if p + 144 ≤ d.length then .ok (recordAt d p, ⟨d, p + 144⟩)
      else .error .unexpectedEof := by
  have e1 : ((d.drop (p + 128)).take 16).take 4 = (d.drop (p + 128)).take 4 := by
    rw [List.take_take]; norm_num
  have e2 : (((d.drop (p + 128)).take 16).drop 4).take 4 =
      (d.drop (p + 132)).take 4 := by
    rw [List.drop_take, List.drop_drop, List.take_take]
    norm_num
  have e3 : (((d.drop (p + 128)).take 16).drop 8).take 4 =
      (d.drop (p + 136)).take 4 := by
    rw [List.drop_take, List.drop_drop, List.take_take]
    norm_num
  have e4 : (((d.drop (p + 128)).take 16).drop 12).take 4 =
      (d.drop (p + 140)).take 4 := by
    rw [List.drop_take, List.drop_drop, List.take_take]
    norm_num
  by_cases h : p + 144 ≤ d.length
  · have h1 : p + 128 ≤ d.length := by omega
    have h2 : p + 128 + 16 ≤ d.length := by omega
    simp only [PackageEntry.read_package_entry, ByteSource.read_exact,
      if_pos h1, if_pos h2, e1, e2, e3, e4, if_pos h, recordAt]
  · by_cases h1 : p + 128 ≤ d.length
    · have h2 : ¬ p + 128 + 16 ≤ d.length := by omega
      simp only [PackageEntry.read_package_entry, ByteSource.read_exact,
        if_pos h1, if_neg h2, if_neg h]
    · simp only [PackageEntry.read_package_entry, ByteSource.read_exact,
        if_neg h1, if_neg h]

/-- Unfolding `tocEntries` one record at a time. -/
theorem tocEntries_succ (d : List Nat) (p n : Nat) :
    tocEntries d p (n + 1) = recordAt d p :: tocEntries d (p + 144) n := by
  have hf : (fun i => recordAt d (p + 144 * Nat.succ i)) =
      (fun i => recordAt d (p + 144 + 144 * i)) := by
    funext i
    congr 1
    omega
  simp only [tocEntries, List.range_succ_eq_map, List.map_cons, List.map_map,
    Function.comp_def, hf, Nat.mul_zero, Nat.add_zero]

/-- Reading `n` records from position `p` succeeds when they all fit,
yielding the records laid out there and leaving the cursor after them. -/
theorem read_package_entries_ok (d : List Nat) :
    ∀ (n p : Nat), p + 144 * n ≤ d.length →
      PackageEntry.read_package_entries ⟨d, p⟩ n =
        .ok (tocEntries d p n, ⟨d, p + 144 * n⟩) := by
  intro n
  induction n with
  | zero => intro p hp; simp [PackageEntry.read_package_entries, tocEntries]
  | succ n ih =>
    intro p hp
    have h1 : p + 144 ≤ d.length := by omega
    have h2 : (p + 144) + 144 * n ≤ d.length := by
      have : 144 * (n + 1) = 144 + 144 * n := by ring
      omega
    simp only [PackageEntry.read_package_entries, read_package_entry_spec,
      if_pos h1, ih (p + 144) h2, tocEntries_succ]
    have : p + 144 + 144 * n = p + 144 * (n + 1) := by ring
    simp [this]

/-- Reading a positive number of records fails with an EOF error when they
do not all fit. -/
theorem read_package_entries_err (d : List Nat) :
    ∀ (n p : Nat), n ≠ 0 → d.length < p + 144 * n →
      PackageEntry.read_package_entries ⟨d, p⟩ n = .error .unexpectedEof := by
  intro n
  induction n with
  | zero => intro p h0; omega
  | succ n ih =>
    intro p hn hlt
    by_cases h1 : p + 144 ≤ d.length
    · have hn0 : n ≠ 0 := by
        intro h0
        rw [h0] at hlt
        omega
      have hlt1 : d.length < (p + 144) + 144 * n := by
        have : 144 * (n + 1) = 144 + 144 * n := by ring
        omega
      simp only [PackageEntry.read_package_entries, read_package_entry_spec,
        if_pos h1, ih (p + 144) hn0 hlt1]
    · simp only [PackageEntry.read_package_entries, read_package_entry_spec,
        if_neg h1]

/-- When every record name is valid UTF-8, the map-building loop succeeds
and folds `insertA` over the records in TOC order. -/
theorem insert_entries_ok :
    ∀ (es : List PackageEntry) (m : List (List Nat × PackageEntry)),
      (∀ e ∈ es, validUtf8 e.name) →
      insert_entries es m =
        .ok (es.foldl (fun m e => insertA (dropTrailingZeros e.name) e m) m) := by
  intro es
  induction es with
  | nil => intro m _; simp [insert_entries]
  | cons e rest ih =>
    intro m hv
    have hve : validUtf8 e.name := hv e (by simp)
    simp only [insert_entries, PackageEntry.get_name, if_pos hve,
      List.foldl_cons]
    exact ih _ (fun x hx => hv x (by simp [hx]))

/-- If the map-building loop succeeds then every record name was valid
UTF-8 and the result is the `insertA` fold over the records. -/
theorem insert_entries_ok_inv :
    ∀ (es : List PackageEntry) (m m' : List (List Nat × PackageEntry)),
      insert_entries es m = .ok m' →
      (∀ e ∈ es, validUtf8 e.name) ∧
        m' = es.foldl (fun m e => insertA (dropTrailingZeros e.name) e m) m := by
  intro es
  induction es with
  | nil =>
    intro m m' h
    simp only [insert_entries] at h
    cases h
    simp [insert_entries]
  | cons e rest ih =>
    intro m m' h
    simp only [insert_entries, PackageEntry.get_name] at h
    by_cases hv : validUtf8 e.name
    · rw [if_pos hv] at h
      obtain ⟨hall, hm⟩ := ih _ _ h
      refine ⟨?_, ?_⟩
      · intro x hx
        rcases List.mem_cons.mp hx with hx | hx
        · rw [hx]; exact hv
        · exact hall x hx
      · simpa using hm
    · rw [if_neg hv] at h
      cases h

/-- Full characterization of `mount_from_cursor`: the initial cursor
position is irrelevant (mount seeks to 0 first); the header checks run in
order (length, magic, version), an empty record count is rejected, the
`tocLength / 144` records are read from `tocOffset`, and the name map is
built from them. -/
theorem mount_spec (d : List Nat) (pos : Nat) :
    Package.mount_from_cursor ⟨d, pos⟩ =
      if 16 ≤ d.length then
        if magicBytes d = ADAT_MAGIC then
          if versionOf d = 9 then
            if tocLengthOf d / 144 = 0 then .error .emptyToc
            else
              if tocOffsetOf d + 144 * (tocLengthOf d / 144) ≤ d.length then
                match insert_entries
                    (tocEntries d (tocOffsetOf d) (tocLengthOf d / 144)) [] with
                | .error e => .error e
                | .ok m =>
                  .ok ⟨⟨d, tocOffsetOf d + 144 * (tocLengthOf d / 144)⟩,
                        ⟨u32le_from_slice (magicBytes d), tocOffsetOf d,
                          tocLengthOf d, versionOf d⟩, m⟩
              else .error .unexpectedEof
          else .error (.versionMismatch 9 (versionOf d))
        else .error (.magicMismatch (magicBytes d))
      else .error .unexpectedEof := by
  have hsz : ADAT_ENTRY_SIZE = 144 := rfl
  by_cases h16 : 16 ≤ d.length
  · by_cases hm : magicBytes d = ADAT_MAGIC
    · by_cases hv : versionOf d = 9
      · simp only [Package.mount_from_cursor, ByteSource.seek,
          read_package_header_spec, if_pos h16, if_pos hm, if_pos hv, hsz]
        by_cases hc : tocLengthOf d / 144 = 0
        · simp [hc]
        · rw [if_neg hc, if_neg hc]
          by_cases hb : tocOffsetOf d + 144 * (tocLengthOf d / 144) ≤ d.length
          · rw [if_pos hb,
              read_package_entries_ok d (tocLengthOf d / 144) (tocOffsetOf d) hb]
          · rw [if_neg hb,
              read_package_entries_err d (tocLengthOf d / 144) (tocOffsetOf d)
                hc (by omega)]
      · simp only [Package.mount_from_cursor, ByteSource.seek,
          read_package_header_spec, if_pos h16, if_pos hm, if_neg hv]
    · simp only [Package.mount_from_cursor, ByteSource.seek,
        read_package_header_spec, if_pos h16, if_neg hm]
  · simp only [Package.mount_from_cursor, ByteSource.seek,
      read_package_header_spec, if_neg h16]

/-- Lookup after an overwriting insert: the inserted key now maps to the
new value, all other keys are unaffected. -/
theorem lookupA_insertA (k k' : List Nat) (v : PackageEntry) :
    ∀ m, lookupA k (insertA k' v m) =
      if k' = k then some v else lookupA k m := by
  intro m
  induction m with
  | nil =>
    by_cases h : k' = k
    · simp [insertA, lookupA, h]
    · simp [insertA, lookupA, h]
  | cons hd tl ih =>
    obtain ⟨k0, v0⟩ := hd
    by_cases h0 : k0 = k'
    · subst h0
      by_cases h : k0 = k
      · simp [insertA, lookupA, h]
      · simp [insertA, lookupA, h]
    · by_cases h : k0 = k
      · subst h
        have : ¬ k' = k0 := fun hh => h0 hh.symm
        simp [insertA, lookupA, h0, this]
      · simp [insertA, lookupA, h0, h, ih]

/-- Key membership after an overwriting insert. -/
theorem mem_keys_insertA (k k' : List Nat) (v : PackageEntry) :
    ∀ m, k ∈ (insertA k' v m).map Prod.fst ↔
      k = k' ∨ k ∈ m.map Prod.fst := by
  intro m
  induction m with
  | nil => simp [insertA, eq_comm]
  | cons hd tl ih =>
    obtain ⟨k0, v0⟩ := hd
    by_cases h0 : k0 = k'
    · subst h0
      simp [insertA, eq_comm]
    · simp only [insertA, if_neg h0, List.map_cons, List.mem_cons, ih]
      tauto

/-- Lookup in the fold of overwriting inserts: the last record with the
looked-up trimmed name wins; if none matches, the initial map decides. -/
theorem lookupA_foldl (k : List Nat) :
    ∀ (es : List PackageEntry) (m : List (List Nat × PackageEntry)),
      lookupA k (es.foldl (fun m e => insertA (dropTrailingZeros e.name) e m) m) =
        (es.reverse.find? (fun e => decide (dropTrailingZeros e.name = k))).or
          (lookupA k m) := by
  intro es
  induction es with
  | nil => intro m; simp
  | cons e rest ih =>
    intro m
    simp only [List.foldl_cons, ih, List.reverse_cons, List.find?_append]
    by_cases h : dropTrailingZeros e.name = k
    · simp [lookupA_insertA, h, Option.or_assoc, List.find?]
    · simp [lookupA_insertA, h, Option.or_assoc, List.find?]

/-- Key membership in the fold of overwriting inserts. -/
theorem mem_keys_foldl (k : List Nat) :
    ∀ (es : List PackageEntry) (m : List (List Nat × PackageEntry)),
      k ∈ ((es.foldl (fun m e => insertA (dropTrailingZeros e.name) e m) m).map
          Prod.fst) ↔
        (∃ e ∈ es, dropTrailingZeros e.name = k) ∨ k ∈ m.map Prod.fst := by
  intro es
  induction es with
  | nil => intro m; simp
  | cons e rest ih =>
    intro m
    rw [List.foldl_cons, ih, mem_keys_insertA]
    constructor
    · rintro (⟨x, hx, hxk⟩ | h | h)
      · exact Or.inl ⟨x, List.mem_cons_of_mem e hx, hxk⟩
      · exact Or.inl ⟨e, List.mem_cons_self e rest, h.symm⟩
      · exact Or.inr h
    · rintro (⟨x, hx, hxk⟩ | h)
      · rcases List.mem_cons.mp hx with hxe | hxr
        · subst hxe
          exact Or.inr (Or.inl hxk.symm)
        · exact Or.inl ⟨x, hxr, hxk⟩
      · exact Or.inr (Or.inr h)

/-- The result of a payload read does not depend on the incoming cursor
position: `read_entry` always seeks to the descriptor's offset first. -/
theorem read_entry_pos_irrel (inf : Inflate) (e : PackageEntry)
    (d : List Nat) (p1 p2 : Nat) :
    PackageEntry.read_entry inf e ⟨d, p1⟩ = PackageEntry.read_entry inf e ⟨d, p2⟩ := rfl

/-- A payload read never changes the underlying data of the byte source,
only the cursor position. -/
theorem read_entry_data_eq (inf : Inflate) (e : PackageEntry)
    (src : ByteSource) :
    (PackageEntry.read_entry inf e src).2.data = src.data := by
  simp only [PackageEntry.read_entry, ByteSource.seek, ByteSource.read_exact]
  by_cases hc : e.offset + e.compressed_length ≤ src.data.length
  · rw [if_pos hc]
    cases hd : decompress_to_vec_zlib_with_limit inf
        ((src.data.drop e.offset).take e.compressed_length) e.length with
    | ok v => simp [hd]
    | error ie => simp [hd]
  · rw [if_neg hc]

/-- The observable outcome of `PackageEntry::read_entry`: EOF when the
payload does not fit in the source, otherwise the limited inflate of the
`compressed_length` bytes at `offset` with cap `length`. -/
theorem read_entry_fst_spec (inf : Inflate) (e : PackageEntry)
    (src : ByteSource) :
    (PackageEntry.read_entry inf e src).1 =
      if e.offset + e.compressed_length ≤ src.data.length then
        match inf ((src.data.drop e.offset).take e.compressed_length) with
        | .ok out =>
          if out.length ≤ e.length then .ok out
          else .error (.decompressionError .limitExceeded)
        | .error _ => .error (.decompressionError .corrupt)
      else .error .unexpectedEof := by
  simp only [PackageEntry.read_entry, ByteSource.seek, ByteSource.read_exact,
    decompress_to_vec_zlib_with_limit]
  by_cases hc : e.offset + e.compressed_length ≤ src.data.length
  · rw [if_pos hc, if_pos hc]
    cases hinf : inf ((src.data.drop e.offset).take e.compressed_length) with
    | ok out =>
      by_cases hlen : out.length ≤ e.length
      · simp [hinf, hlen]
      · simp [hinf, hlen]
    | error u => simp [hinf]
  · rw [if_neg hc, if_neg hc]

/-- Neither branch of `Package::read_entry` touches the header, the index,
or the underlying data. -/
theorem package_read_entry_frame (inf : Inflate) (p : Package)
    (name : List Nat) :
    (Package.read_entry inf p name).2.header = p.header ∧
    (Package.read_entry inf p name).2.entries = p.entries ∧
    (Package.read_entry inf p name).2.cursor.data = p.cursor.data := by
  simp only [Package.read_entry]
  cases hl : lookupA name p.entries with
  | none => simp
  | some pe => simp [read_entry_data_eq]

/-- `read_text_entry` returns the same final package state as the
underlying `read_entry` call. -/
theorem read_text_entry_snd (inf : Inflate) (p : Package) (name : List Nat) :
    (Package.read_text_entry inf p name).2 = (Package.read_entry inf p name).2 := by
  cases hr : (Package.read_entry inf p name).1 with
  | error e => simp [Package.read_text_entry, hr]
  | ok v =>
    by_cases h : validUtf8 v
    · simp [Package.read_text_entry, hr, h]
    · simp [Package.read_text_entry, hr, h]

/-- The outcome of `Package::read_entry` depends only on the index and the
underlying data, never on the current cursor position. -/
theorem package_read_entry_fst_congr (inf : Inflate) (p q : Package)
    (name : List Nat) (hd : q.cursor.data = p.cursor.data)
    (he : q.entries = p.entries) :
    (Package.read_entry inf q name).1 = (Package.read_entry inf p name).1 := by
  simp only [Package.read_entry, he]
  cases hl : lookupA name p.entries with
  | none => simp
  | some pe =>
    simp only []
    have hq : PackageEntry.read_entry inf pe q.cursor =
        PackageEntry.read_entry inf pe ⟨p.cursor.data, q.cursor.pos⟩ := by
      rw [show q.cursor = (⟨q.cursor.data, q.cursor.pos⟩ : ByteSource) from rfl, hd]
    rw [hq, read_entry_pos_irrel inf pe p.cursor.data q.cursor.pos p.cursor.pos]

/-- Restatement of `mount_spec` for an arbitrary byte source value. -/
theorem mount_spec' (src : ByteSource) :
    Package.mount_from_cursor src =
      if 16 ≤ src.data.length then
        if magicBytes src.data = ADAT_MAGIC then
          if versionOf src.data = 9 then
            if tocLengthOf src.data / 144 = 0 then .error .emptyToc
            else
              if tocOffsetOf src.data + 144 * (tocLengthOf src.data / 144) ≤
                  src.data.length then
                match insert_entries (tocEntries src.data (tocOffsetOf src.data)
                    (tocLengthOf src.data / 144)) [] with
                | .error e => .error e
                | .ok m =>
                  .ok ⟨⟨src.data,
                         tocOffsetOf src.data +
                           144 * (tocLengthOf src.data / 144)⟩,
                        ⟨u32le_from_slice (magicBytes src.data),
                          tocOffsetOf src.data, tocLengthOf src.data,
                          versionOf src.data⟩, m⟩
              else .error .unexpectedEof
          else .error (.versionMismatch 9 (versionOf src.data))
        else .error (.magicMismatch (magicBytes src.data))
      else .error .unexpectedEof :=
  mount_spec src.data src.pos

set_option maxRecDepth 8000

/-- C1 counterexample: `archA` is a fully valid one-record archive with
`tocLength = 144`; mounting it succeeds although `144 % 140 ≠ 0`, so
"mount succeeds only if `tocLength % 140 == 0`" is false on the code (the
record size is 144, and no divisibility check is performed at all). -/
theorem mount_misaligned_toc_accepted :
    (∃ p, Package.mount_from_cursor ⟨archA, 0⟩ = .ok p) ∧
      ¬ tocLengthOf archA % 140 = 0 :=
  ⟨⟨pkgA, by decide⟩, by decide⟩

/-- C1 (amended): mount succeeds iff the source has at least 16 bytes, the
magic equals "ADAT", the version field equals 9, `tocLength ≥ 144` (i.e.
`tocLength / 144 ≥ 1`; the record size is 144, not 140, and no
divisibility requirement exists), the `tocLength / 144` TOC records are
readable, and their names are valid UTF-8. -/
theorem mount_succeeds_iff (src : ByteSource) :
    (∃ p, Package.mount_from_cursor src = .ok p) ↔
      16 ≤ src.data.length ∧
      magicBytes src.data = ADAT_MAGIC ∧
      versionOf src.data = 9 ∧
      144 ≤ tocLengthOf src.data ∧
      tocOffsetOf src.data + 144 * (tocLengthOf src.data / 144) ≤
        src.data.length ∧
      ∀ e ∈ tocEntries src.data (tocOffsetOf src.data)
          (tocLengthOf src.data / 144), validUtf8 e.name := by
  rw [mount_spec']
  constructor
  · rintro ⟨p, hp⟩
    by_cases h16 : 16 ≤ src.data.length
    case neg => rw [if_neg h16] at hp; exact absurd hp (by simp)
    rw [if_pos h16] at hp
    by_cases hm : magicBytes src.data = ADAT_MAGIC
    case neg => rw [if_neg hm] at hp; exact absurd hp (by simp)
    rw [if_pos hm] at hp
    by_cases hv : versionOf src.data = 9
    case neg => rw [if_neg hv] at hp; exact absurd hp (by simp)
    rw [if_pos hv] at hp
    by_cases hc : tocLengthOf src.data / 144 = 0
    case pos => rw [if_pos hc] at hp; exact absurd hp (by simp)
    rw [if_neg hc] at hp
    by_cases hb : tocOffsetOf src.data + 144 * (tocLengthOf src.data / 144) ≤
        src.data.length
    case neg => rw [if_neg hb] at hp; exact absurd hp (by simp)
    rw [if_pos hb] at hp
    refine ⟨h16, hm, hv, by omega, hb, ?_⟩
    cases hi : insert_entries (tocEntries src.data (tocOffsetOf src.data)
        (tocLengthOf src.data / 144)) [] with
    | error e => rw [hi] at hp; exact absurd hp (by simp)
    | ok m => exact (insert_entries_ok_inv _ _ _ hi).1
  · rintro ⟨h16, hm, hv, hl, hb, hnames⟩
    have hc : ¬ tocLengthOf src.data / 144 = 0 := by omega
    rw [if_pos h16, if_pos hm, if_pos hv, if_neg hc, if_pos hb,
      insert_entries_ok _ _ hnames]
    exact ⟨_, rfl⟩

/-- C6: with at least 16 bytes of header available, a wrong magic makes
mount fail with a magic-mismatch error reporting the four bytes found; a
correct magic with a version field other than 9 makes mount fail with a
version-mismatch error reporting expected 9 and the found value.  In both
cases the result is an error, so no `Package` is produced. -/
theorem mount_header_error_reporting (src : ByteSource)
    (h16 : 16 ≤ src.data.length) :
    (magicBytes src.data ≠ ADAT_MAGIC →
      Package.mount_from_cursor src =
        .error (.magicMismatch (magicBytes src.data))) ∧
    (magicBytes src.data = ADAT_MAGIC → versionOf src.data ≠ 9 →
      Package.mount_from_cursor src =
        .error (.versionMismatch 9 (versionOf src.data))) := by
  constructor
  · intro hm
    rw [mount_spec', if_pos h16, if_neg hm]
  · intro hm hv
    rw [mount_spec', if_pos h16, if_pos hm, if_neg hv]

/-- C6 witness: mounting the concrete header `archV8` (valid magic,
version field 8) fails with `versionMismatch 9 8`. -/
theorem mount_header_error_reporting_witness :
    Package.mount_from_cursor ⟨archV8, 0⟩ = .error (.versionMismatch 9 8) :=
  (mount_header_error_reporting ⟨archV8, 0⟩ (by decide)).2 (by decide) (by decide)

/-- C8 counterexample: `archB` has a valid header with `tocLength = 141`
(at least 140 and not a multiple of 140) and a readable record area, yet
mount fails with the empty-TOC error, because the record size is actually
144 and `141 / 144 = 0`. -/
theorem mount_toc_length_141_rejected :
    140 ≤ tocLengthOf archB ∧ ¬ tocLengthOf archB % 140 = 0 ∧
    tocOffsetOf archB + tocLengthOf archB ≤ archB.length ∧
    Package.mount_from_cursor ⟨archB, 0⟩ = .error .emptyToc := by
  refine ⟨by decide, by decide, by decide, by decide⟩

/-- C8 (amended): a valid header whose `tocLength` is at least 144 but not
a multiple of 144 still mounts successfully (given readable records with
valid UTF-8 names): exactly `tocLength / 144` records are read and the
remaining `tocLength % 144` bytes are silently ignored; misalignment of
the TOC length is never itself reported as an error. -/
theorem mount_ignores_toc_misalignment (src : ByteSource)
    (h16 : 16 ≤ src.data.length)
    (hmag : magicBytes src.data = ADAT_MAGIC)
    (hver : versionOf src.data = 9)
    (hlen : 144 ≤ tocLengthOf src.data)
    (hmis : ¬ tocLengthOf src.data % 144 = 0)
    (hread : tocOffsetOf src.data + 144 * (tocLengthOf src.data / 144) ≤
      src.data.length)
    (hnames : ∀ e ∈ tocEntries src.data (tocOffsetOf src.data)
        (tocLengthOf src.data / 144), validUtf8 e.name) :
    ∃ p, Package.mount_from_cursor src = .ok p ∧
      p.entries = entryMapOf (tocEntries src.data (tocOffsetOf src.data)
        (tocLengthOf src.data / 144)) := by
  have hc : ¬ tocLengthOf src.data / 144 = 0 := by omega
  rw [mount_spec', if_pos h16, if_pos hmag, if_pos hver, if_neg hc,
    if_pos hread, insert_entries_ok _ _ hnames]
  exact ⟨_, rfl, rfl⟩

/-- C8 witness: `archC` (`tocLength = 150`, not a multiple of 144) mounts
successfully and its index is built from the single record read. -/
theorem mount_ignores_toc_misalignment_witness :
    ∃ p, Package.mount_from_cursor ⟨archC, 0⟩ = .ok p ∧
      p.entries = entryMapOf (tocEntries archC (tocOffsetOf archC)
        (tocLengthOf archC / 144)) :=
  mount_ignores_toc_misalignment ⟨archC, 0⟩ (by decide) (by decide)
    (by decide) (by decide) (by decide) (by decide) (by decide)

/-- C9: when the magic is wrong and the version field is also not 9, mount
reports the magic mismatch — the magic check runs and fails before the
version field is examined. -/
theorem magic_checked_before_version (src : ByteSource)
    (h16 : 16 ≤ src.data.length)
    (hmag : magicBytes src.data ≠ ADAT_MAGIC)
    (hver : versionOf src.data ≠ 9) :
    Package.mount_from_cursor src =
      .error (.magicMismatch (magicBytes src.data)) := by
  rw [mount_spec', if_pos h16, if_neg hmag]

/-- C9 witness: `archBadMagic` has first byte 66 and version field 8; the
reported error is the magic mismatch with the found bytes. -/
theorem magic_checked_before_version_witness :
    Package.mount_from_cursor ⟨archBadMagic, 0⟩ =
      .error (.magicMismatch [66, 68, 65, 84]) :=
  magic_checked_before_version ⟨archBadMagic, 0⟩ (by decide) (by decide)
    (by decide)

/-- C2 counterexample: with a stream inflating to the single byte `7` and
a descriptor declaring decompressed length 5, `readEntry` succeeds and
returns 1 byte — it neither returns exactly `descriptor.length` bytes nor
fails with a size-mismatch error on under-length output. -/
theorem read_entry_short_output_accepted :
    (Package.read_entry infShort pkgB [97]).1 = .ok [7] ∧
    lookupA [97] pkgB.entries = some recB ∧
    ¬ ([7] : List Nat).length = recB.length :=
  ⟨by decide, by decide, by decide⟩

/-- C2 (amended): a successful `readEntry(name)` returns at most the
entry's declared decompressed length (`descriptor.length` is only an upper
bound enforced by the inflate cap); under-length output is returned as-is
and no size-mismatch check is performed. -/
theorem read_entry_length_le_declared (inf : Inflate) (p : Package)
    (name v : List Nat) (q : Package)
    (h : Package.read_entry inf p name = (.ok v, q)) :
    ∃ e, lookupA name p.entries = some e ∧ v.length ≤ e.length := by
  cases hl : lookupA name p.entries with
  | none =>
    simp only [Package.read_entry, hl] at h
    exact absurd (congrArg Prod.fst h) (by simp)
  | some pe =>
    refine ⟨pe, rfl, ?_⟩
    simp only [Package.read_entry, hl] at h
    have h1 : (PackageEntry.read_entry inf pe p.cursor).1 = .ok v :=
      congrArg Prod.fst h
    rw [read_entry_fst_spec] at h1
    by_cases hc : pe.offset + pe.compressed_length ≤ p.cursor.data.length
    case neg => rw [if_neg hc] at h1; exact absurd h1 (by simp)
    rw [if_pos hc] at h1
    cases hinf : inf ((p.cursor.data.drop pe.offset).take pe.compressed_length) with
    | error u =>
      simp only [hinf] at h1
      exact absurd h1 (by simp)
    | ok out =>
      simp only [hinf] at h1
      by_cases hlen : out.length ≤ pe.length
      case neg => rw [if_neg hlen] at h1; exact absurd h1 (by simp)
      rw [if_pos hlen] at h1
      injection h1 with h2
      rw [← h2]
      exact hlen

/-- C2 witness: the successful concrete read of `"a"` from `pkgB` returns
1 byte, which is at most the declared length 5. -/
theorem read_entry_length_le_declared_witness :
    ∃ e, lookupA [97] pkgB.entries = some e ∧
      ([7] : List Nat).length ≤ e.length :=
  read_entry_length_le_declared infShort pkgB [97] [7] pkgB2 (by decide)

/-- C3: when the `compressedLength` payload bytes at `descriptor.offset`
are available, `read_entry` inflates exactly those bytes with the output
capped at `descriptor.length`: it returns the inflated bytes when they fit
under the cap, a limit-exceeded error when decompression would exceed the
cap, and a corrupt error on malformed compressed data — never oversized
output. -/
theorem read_entry_decompression_spec (inf : Inflate) (e : PackageEntry)
    (src : ByteSource)
    (hin : e.offset + e.compressed_length ≤ src.data.length) :
    (PackageEntry.read_entry inf e src).1 =
      match inf ((src.data.drop e.offset).take e.compressed_length) with
      | .ok out =>
        if out.length ≤ e.length then .ok out
        else .error (.decompressionError .limitExceeded)
      | .error _ => .error (.decompressionError .corrupt) :=
  by rw [read_entry_fst_spec, if_pos hin]

/-- C3 witness: the concrete entry read over a 3-byte source with the
2-byte payload in bounds returns the inflated bytes. -/
theorem read_entry_decompression_spec_witness :
    (PackageEntry.read_entry infShort recB ⟨[1, 2, 3], 0⟩).1 = .ok [7] :=
  read_entry_decompression_spec infShort recB ⟨[1, 2, 3], 0⟩ (by decide)

/-- C5: `readEntry` on a name absent from the index fails with the
not-found error, returns the package state completely unchanged (so no
seek or read happens on the byte source), and any subsequent read behaves
exactly as on the original package. -/
theorem read_entry_absent_name (inf : Inflate) (p : Package)
    (name : List Nat) (h : lookupA name p.entries = none) :
    Package.read_entry inf p name = (.error .entryNotFound, p) ∧
    ∀ other, Package.read_entry inf (Package.read_entry inf p name).2 other =
      Package.read_entry inf p other := by
  have h1 : Package.read_entry inf p name = (.error .entryNotFound, p) := by
    simp [Package.read_entry, h]
  exact ⟨h1, fun other => by rw [h1]⟩

/-- C5 witness: reading the absent name `"b"` from `pkgB` fails with the
not-found error and leaves the package untouched. -/
theorem read_entry_absent_name_witness :
    Package.read_entry infShort pkgB [98] = (.error .entryNotFound, pkgB) :=
  (read_entry_absent_name infShort pkgB [98] (by decide)).1

/-- C7: two successive `readEntry(name)` calls on the same package return
identical results — each call re-seeks to the descriptor's offset, so the
cursor position left behind by the first call cannot affect the second. -/
theorem read_entry_idempotent (inf : Inflate) (p : Package)
    (name : List Nat) :
    (Package.read_entry inf (Package.read_entry inf p name).2 name).1 =
      (Package.read_entry inf p name).1 := by
  obtain ⟨hh, he, hd⟩ := package_read_entry_frame inf p name
  exact package_read_entry_fst_congr inf p _ name hd he

/-- C10: neither `readEntry` nor `readTextEntry` ever modifies the
package's header or its name-to-descriptor index, whether it succeeds or
fails, and `listEntries` returns the same names after any sequence of read
calls. -/
theorem read_calls_frame (inf : Inflate) (p : Package) (name : List Nat) :
    ((Package.read_entry inf p name).2.header = p.header ∧
     (Package.read_entry inf p name).2.entries = p.entries) ∧
    ((Package.read_text_entry inf p name).2.header = p.header ∧
     (Package.read_text_entry inf p name).2.entries = p.entries) ∧
    (∀ names : List (List Nat),
      (names.foldl (fun q n => (Package.read_entry inf q n).2) p).list_entries =
        p.list_entries) := by
  obtain ⟨hh, he, hd⟩ := package_read_entry_frame inf p name
  refine ⟨⟨hh, he⟩, ?_, ?_⟩
  · rw [read_text_entry_snd]
    exact ⟨hh, he⟩
  · intro names
    have hfold : ∀ (ns : List (List Nat)) (q : Package),
        (ns.foldl (fun q n => (Package.read_entry inf q n).2) q).entries =
          q.entries := by
      intro ns
      induction ns with
      | nil => intro q; rfl
      | cons n rest ih =>
        intro q
        rw [List.foldl_cons, ih]
        exact (package_read_entry_frame inf q n).2.1
    simp [Package.list_entries, hfold names p]

/-- C4: after a successful mount, the names listed are exactly the
NUL-trimmed names of the TOC records that were read, and each name maps to
the descriptor of the last record in TOC order bearing that trimmed
name. -/
theorem list_entries_names_spec (src : ByteSource) (p : Package)
    (es : List PackageEntry) (srcT : ByteSource)
    (hm : Package.mount_from_cursor src = .ok p)
    (he : PackageEntry.read_package_entries
        (ByteSource.seek src (tocOffsetOf src.data))
        (tocLengthOf src.data / 144) = .ok (es, srcT)) :
    (∀ name, name ∈ p.list_entries ↔
      ∃ e ∈ es, dropTrailingZeros e.name = name) ∧
    (∀ name, lookupA name p.entries =
      es.reverse.find? (fun e => decide (dropTrailingZeros e.name = name))) := by
  rw [mount_spec'] at hm
  by_cases h16 : 16 ≤ src.data.length
  case neg => rw [if_neg h16] at hm; exact absurd hm (by simp)
  rw [if_pos h16] at hm
  by_cases hmag : magicBytes src.data = ADAT_MAGIC
  case neg => rw [if_neg hmag] at hm; exact absurd hm (by simp)
  rw [if_pos hmag] at hm
  by_cases hv : versionOf src.data = 9
  case neg => rw [if_neg hv] at hm; exact absurd hm (by simp)
  rw [if_pos hv] at hm
  by_cases hc : tocLengthOf src.data / 144 = 0
  case pos => rw [if_pos hc] at hm; exact absurd hm (by simp)
  rw [if_neg hc] at hm
  by_cases hb : tocOffsetOf src.data + 144 * (tocLengthOf src.data / 144) ≤
      src.data.length
  case neg => rw [if_neg hb] at hm; exact absurd hm (by simp)
  rw [if_pos hb] at hm
  have hok := read_package_entries_ok src.data (tocLengthOf src.data / 144)
    (tocOffsetOf src.data) hb
  simp only [ByteSource.seek] at he
  rw [hok] at he
  have hes : tocEntries src.data (tocOffsetOf src.data)
      (tocLengthOf src.data / 144) = es := by
    have := congrArg Prod.fst (Except.ok.inj he)
    exact this
  cases hi : insert_entries (tocEntries src.data (tocOffsetOf src.data)
      (tocLengthOf src.data / 144)) [] with
  | error e => rw [hi] at hm; exact absurd hm (by simp)
  | ok m =>
    rw [hi] at hm
    injection hm with hp
    obtain ⟨hnames, hmap⟩ := insert_entries_ok_inv _ _ _ hi
    have hpe : p.entries = m := by rw [← hp]
    have hpl : p.list_entries = m.map Prod.fst := by
      rw [Package.list_entries, hpe]
    constructor
    · intro name
      rw [hpl, hmap, ← hes]
      have := mem_keys_foldl name (tocEntries src.data (tocOffsetOf src.data)
        (tocLengthOf src.data / 144)) []
      simpa using this
    · intro name
      rw [hpe, hmap, ← hes, lookupA_foldl]
      simp [lookupA]

/-- C4 witness: the mounted `archA` lists exactly the trimmed name of its
single record. -/
theorem list_entries_names_spec_witness :
    [97] ∈ pkgA.list_entries ↔
      ∃ e ∈ [recA], dropTrailingZeros e.name = [97] :=
  (list_entries_names_spec ⟨archA, 0⟩ pkgA [recA] ⟨archA, 160⟩ (by decide)
    (by decide)).1 [97]

end Adat
